import Mathlib

/-!
Shallow embedding of pmwd's time-integration engine (`src/pmwd/nbody.py`)
and proofs about it.

Scale factors, split weights and per-particle field values are modelled as
rationals.  The external collaborators that the spec declares out of scope
(the growth-factor module, the gravity solver and its reverse-mode pullback,
the step-factor cosmology gradients obtained by `value_and_grad`, and
snapshot interpolation from `obs_util`) are abstract parameters bundled in
`Ext`, with a fixed cosmology folded in; the cosmology cotangent bundle is
modelled as a single numeric leaf.  Particle fields are indexed by `Fin n`
so that the array reductions (`.sum()`) of the source are genuine sums.
-/

namespace Pmwd

/-- Particle state: integer cell index `pmid`, displacement `disp`, velocity
`vel`, acceleration `acc`, and the optional co-evolving attribute `attr`
(the source uses the external `Particles` container for this). -/
@[ext]
structure Ptcl (n : ℕ) where
  pmid : Fin n → ℤ
  disp : Fin n → ℚ
  vel : Fin n → ℚ
  acc : Fin n → ℚ
  attr : Option Unit

/-- Particle cotangent bundle: one slot per differentiable particle field. -/
@[ext]
structure PtclCot (n : ℕ) where
  disp : Fin n → ℚ
  vel : Fin n → ℚ
  acc : Fin n → ℚ

/-- External collaborators with a fixed cosmology folded in.
`growth a d` is the growth factor (`d`-th logarithmic derivative, `d = 0`
being the factor itself); `E2` and `H_deriv` are the expansion-rate
collaborators; `sqrt` models the numeric square-root primitive applied to
the `E2` output.  `gravity` maps a scale factor and particle positions
(`pmid`, `disp`) to accelerations, and `gravity_vjp` is its reverse-mode
pullback: applied to a cotangent seed it returns the displacement pullback
together with the cosmology pullback, both produced by one reverse pass.
`dDriftFactor`/`dKickFactor` are the gradients of the step-factor functions
with respect to cosmology, which the source obtains with `value_and_grad`
and the spec requires the step-factor functions to expose.  `interp` models
`obs_util.interptcl`: interpolation of two particle states at a snapshot
scale factor, returning interpolated displacement and velocity. -/
structure Ext (n : ℕ) where
  growth : ℚ → ℕ → ℚ
  E2 : ℚ → ℚ
  sqrt : ℚ → ℚ
  H_deriv : ℚ → ℚ
  gravity : ℚ → (Fin n → ℤ) → (Fin n → ℚ) → Fin n → ℚ
  gravity_vjp : ℚ → (Fin n → ℤ) → (Fin n → ℚ) → (Fin n → ℚ) → (Fin n → ℚ) × ℚ
  dDriftFactor : ℚ → ℚ → ℚ → ℚ
  dKickFactor : ℚ → ℚ → ℚ → ℚ
  interp : Ptcl n → Ptcl n → ℚ → ℚ → ℚ → (Fin n → ℚ) × (Fin n → ℚ)

/-- Configuration surface consumed by the integration core. -/
structure Conf where
  symp_splits : List (ℚ × ℚ)
  a_nbody : List ℚ
  a_snapshots : Option (List ℚ)
  a_save : Option (List ℚ)

variable {n : ℕ}

/-- Growth factor of the ZA canonical velocity (source `_G_D`). -/
def G_D (ext : Ext n) (a : ℚ) : ℚ :=
  a ^ 2 * ext.sqrt (ext.E2 a) * ext.growth a 1

/-- Growth factor of the ZA accelerations (source `_G_K`). -/
def G_K (ext : Ext n) (a : ℚ) : ℚ :=
  a ^ 3 * ext.E2 a *
    (ext.growth a 2 + (2 + ext.H_deriv a) * ext.growth a 1)

/-- Drift time-step factor (source `drift_factor`). -/
def drift_factor (ext : Ext n) (a_vel a_prev a_next : ℚ) : ℚ :=
  (ext.growth a_next 0 - ext.growth a_prev 0) / G_D ext a_vel

/-- Kick time-step factor (source `kick_factor`). -/
def kick_factor (ext : Ext n) (a_acc a_prev a_next : ℚ) : ℚ :=
  (G_D ext a_next - G_D ext a_prev) / G_K ext a_acc

/-- Drift: `disp += vel * drift_factor` (the working-precision cast of the
source is the identity in exact arithmetic). -/
def drift (ext : Ext n) (a_vel a_prev a_next : ℚ) (ptcl : Ptcl n) : Ptcl n :=
  { ptcl with
    disp := fun i => ptcl.disp i + ptcl.vel i * drift_factor ext a_vel a_prev a_next }

/-- Kick: `vel += acc * kick_factor`. -/
def kick (ext : Ext n) (a_acc a_prev a_next : ℚ) (ptcl : Ptcl n) : Ptcl n :=
  { ptcl with
    vel := fun i => ptcl.vel i + ptcl.acc i * kick_factor ext a_acc a_prev a_next }

/-- Force: replace `acc` by the gravity solver's output. -/
def force (ext : Ext n) (a : ℚ) (ptcl : Ptcl n) : Ptcl n :=
  { ptcl with acc := ext.gravity a ptcl.pmid ptcl.disp }

/-- Drift together with its particle and cosmology adjoints
(source `drift_adj`). -/
def drift_adj (ext : Ext n) (a_vel a_prev a_next : ℚ) (ptcl : Ptcl n)
    (ptcl_cot : PtclCot n) (cosmo_cot : ℚ) : Ptcl n × PtclCot n × ℚ :=
  let factor := drift_factor ext a_vel a_prev a_next
  let ptcl' : Ptcl n :=
    { ptcl with disp := fun i => ptcl.disp i + ptcl.vel i * factor }
  let ptcl_cot' : PtclCot n :=
    { ptcl_cot with vel := fun i => ptcl_cot.vel i - ptcl_cot.disp i * factor }
  let cosmo_cot_drift :=
    ext.dDriftFactor a_vel a_prev a_next * (∑ i, ptcl_cot'.disp i * ptcl'.vel i)
  (ptcl', ptcl_cot', cosmo_cot - cosmo_cot_drift)

/-- Kick together with its particle and cosmology adjoints (source
`kick_adj`); `cosmo_cot_force` is the deferred force-channel cosmology
cotangent that this kernel scales by its own factor before folding it into
the running total. -/
def kick_adj (ext : Ext n) (a_acc a_prev a_next : ℚ) (ptcl : Ptcl n)
    (ptcl_cot : PtclCot n) (cosmo_cot cosmo_cot_force : ℚ) :
    Ptcl n × PtclCot n × ℚ :=
  let factor := kick_factor ext a_acc a_prev a_next
  let ptcl' : Ptcl n :=
    { ptcl with vel := fun i => ptcl.vel i + ptcl.acc i * factor }
  let ptcl_cot' : PtclCot n :=
    { ptcl_cot with disp := fun i => ptcl_cot.disp i - ptcl_cot.acc i * factor }
  let cosmo_cot_kick :=
    ext.dKickFactor a_acc a_prev a_next * (∑ i, ptcl_cot'.vel i * ptcl'.acc i)
  (ptcl', ptcl_cot', cosmo_cot - (cosmo_cot_kick + cosmo_cot_force * factor))

/-- Force together with the particle and cosmology pullbacks of the gravity
solver, both obtained from the one reverse pass `gravity_vjp` (source
`force_adj`).  The displacement pullback of the seed `ptcl_cot.vel` is
stored in the `acc` slot of the particle cotangent, and the cosmology
pullback is returned separately. -/
def force_adj (ext : Ext n) (a : ℚ) (ptcl : Ptcl n) (ptcl_cot : PtclCot n) :
    Ptcl n × PtclCot n × ℚ :=
  let ptcl' : Ptcl n := { ptcl with acc := ext.gravity a ptcl.pmid ptcl.disp }
  let vjpOut := ext.gravity_vjp a ptcl.pmid ptcl.disp ptcl_cot.vel
  (ptcl', { ptcl_cot with acc := vjpOut.1 }, vjpOut.2)

/-- Intermediate scale factor at running fraction `t` of the interval
(the source's `a_prev * (1 - t) + a_next * t`). -/
def itp (a_prev a_next t : ℚ) : ℚ :=
  a_prev * (1 - t) + a_next * t

/-- Loop body of `integrate` (source lines 127-143): the accumulators
`D K a_disp a_vel a_acc` mirror the source's loop state; the two sequential
`if`s of the source are expanded into their four combinations. -/
def integrateGo (ext : Ext n) (a_prev a_next : ℚ) :
    List (ℚ × ℚ) → ℚ → ℚ → ℚ → ℚ → ℚ → Ptcl n → Ptcl n
  | [], _, _, _, _, _, ptcl => ptcl
  | (d, k) :: splits, D, K, a_disp, a_vel, a_acc, ptcl =>
    if d ≠ 0 then
      let D' := D + d
      let aD := itp a_prev a_next D'
      let p1 := force ext aD (drift ext a_vel a_disp aD ptcl)
      if k ≠ 0 then
        let K' := K + k
        let aV := itp a_prev a_next K'
        integrateGo ext a_prev a_next splits D' K' aD aV aD
          (kick ext aD a_vel aV p1)
      else
        integrateGo ext a_prev a_next splits D' K aD a_vel aD p1
    else
      if k ≠ 0 then
        let K' := K + k
        let aV := itp a_prev a_next K'
        integrateGo ext a_prev a_next splits D K' a_disp aV a_acc
          (kick ext a_acc a_vel aV ptcl)
      else
        integrateGo ext a_prev a_next splits D K a_disp a_vel a_acc ptcl

/-- Symplectic integration for one step (source `integrate`). -/
def integrate (ext : Ext n) (conf : Conf) (a_prev a_next : ℚ) (ptcl : Ptcl n) :
    Ptcl n :=
  integrateGo ext a_prev a_next conf.symp_splits 0 0 a_prev a_prev a_prev ptcl

/-- Loop body of `integrate_adj` (source lines 149-165): within each entry
(taken from the reversed split list) `kick_adj` runs before `drift_adj`,
and `force_adj` refreshes the deferred force cosmology cotangent right
after `drift_adj`.  The state is `(ptcl, ptcl_cot, cosmo_cot,
cosmo_cot_force)`. -/
def integrateAdjGo (ext : Ext n) (a_prev a_next : ℚ) :
    List (ℚ × ℚ) → ℚ → ℚ → ℚ → ℚ → ℚ →
      Ptcl n × PtclCot n × ℚ × ℚ → Ptcl n × PtclCot n × ℚ × ℚ
  | [], _, _, _, _, _, st => st
  | (d, k) :: splits, D, K, a_disp, a_vel, a_acc, st =>
    let ptcl := st.1
    let pcot := st.2.1
    let ccot := st.2.2.1
    let ccf := st.2.2.2
    if k ≠ 0 then
      let K' := K + k
      let aV := itp a_prev a_next K'
      let rk := kick_adj ext a_acc a_vel aV ptcl pcot ccot ccf
      if d ≠ 0 then
        let D' := D + d
        let aD := itp a_prev a_next D'
        let rd := drift_adj ext aV a_disp aD rk.1 rk.2.1 rk.2.2
        let rf := force_adj ext aD rd.1 rd.2.1
        integrateAdjGo ext a_prev a_next splits D' K' aD aV aD
          (rf.1, rf.2.1, rd.2.2, rf.2.2)
      else
        integrateAdjGo ext a_prev a_next splits D K' a_disp aV a_acc
          (rk.1, rk.2.1, rk.2.2, ccf)
    else
      if d ≠ 0 then
        let D' := D + d
        let aD := itp a_prev a_next D'
        let rd := drift_adj ext a_vel a_disp aD ptcl pcot ccot
        let rf := force_adj ext aD rd.1 rd.2.1
        integrateAdjGo ext a_prev a_next splits D' K aD a_vel aD
          (rf.1, rf.2.1, rd.2.2, rf.2.2)
      else
        integrateAdjGo ext a_prev a_next splits D K a_disp a_vel a_acc st

/-- Symplectic integration adjoint for one step (source `integrate_adj`;
the unused `obsvbl_cot` argument of the source is omitted). -/
def integrate_adj (ext : Ext n) (conf : Conf) (a_prev a_next : ℚ)
    (st : Ptcl n × PtclCot n × ℚ × ℚ) : Ptcl n × PtclCot n × ℚ × ℚ :=
  integrateAdjGo ext a_prev a_next conf.symp_splits.reverse 0 0
    a_prev a_prev a_prev st

/-! ### Kernel-call traces of the integrator -/

/-- One kernel call of the integrator, with its scale-factor arguments. -/
inductive Ev where
  | drift (a_vel a_prev a_next : ℚ)
  | kick (a_acc a_prev a_next : ℚ)
  | force (a : ℚ)
deriving DecidableEq

/-- Apply one traced kernel call to a particle state. -/
def applyEv (ext : Ext n) (ptcl : Ptcl n) : Ev → Ptcl n
  | .drift v p q => drift ext v p q ptcl
  | .kick c p q => kick ext c p q ptcl
  | .force a => force ext a ptcl

/-- Run a trace of kernel calls left to right. -/
def runEv (ext : Ext n) (evs : List Ev) (ptcl : Ptcl n) : Ptcl n :=
  evs.foldl (applyEv ext) ptcl

/-- Apply one traced adjoint kernel call: `drift`/`kick`/`force` events are
interpreted by `drift_adj`/`kick_adj`/`force_adj`, wired as in
`integrate_adj` (`force_adj` refreshes the deferred force cotangent,
`kick_adj` consumes it). -/
def applyAdjEv (ext : Ext n) (st : Ptcl n × PtclCot n × ℚ × ℚ) :
    Ev → Ptcl n × PtclCot n × ℚ × ℚ
  | .drift v p q =>
    let r := drift_adj ext v p q st.1 st.2.1 st.2.2.1
    (r.1, r.2.1, r.2.2, st.2.2.2)
  | .kick c p q =>
    let r := kick_adj ext c p q st.1 st.2.1 st.2.2.1 st.2.2.2
    (r.1, r.2.1, r.2.2, st.2.2.2)
  | .force a =>
    let r := force_adj ext a st.1 st.2.1
    (r.1, r.2.1, st.2.2.1, r.2.2)

/-- Run a trace of adjoint kernel calls left to right. -/
def runAdjEv (ext : Ext n) (evs : List Ev)
    (st : Ptcl n × PtclCot n × ℚ × ℚ) : Ptcl n × PtclCot n × ℚ × ℚ :=
  evs.foldl (applyAdjEv ext) st

/-- Kernel-call trace of the forward integrator, transcribed from the walk
described in the spec: running fractions `D`, `K`; a nonzero drift weight
advances `D`, drifts from the previous displacement scale factor to
`itp a_prev a_next D`, and immediately refreshes the force there; a nonzero
kick weight advances `K` and kicks at the most recently refreshed
acceleration scale factor; zero weights emit no call. -/
def integrateEvents (a_prev a_next : ℚ) :
    List (ℚ × ℚ) → ℚ → ℚ → List Ev
  | [], _, _ => []
  | (d, k) :: splits, D, K =>
    (if d ≠ 0 then
      [Ev.drift (itp a_prev a_next K) (itp a_prev a_next D)
        (itp a_prev a_next (D + d)),
       Ev.force (itp a_prev a_next (D + d))]
     else []) ++
    (if k ≠ 0 then
      [Ev.kick (itp a_prev a_next (D + d)) (itp a_prev a_next K)
        (itp a_prev a_next (K + k))]
     else []) ++
    integrateEvents a_prev a_next splits (D + d) (K + k)

/-- Kernel-call trace of the adjoint integrator over an (already reversed)
split list: per entry the kick-adjoint call comes first, then the
drift-adjoint call followed by the force refresh. -/
def integrateAdjEventsGo (a_prev a_next : ℚ) :
    List (ℚ × ℚ) → ℚ → ℚ → List Ev
  | [], _, _ => []
  | (d, k) :: splits, D, K =>
    (if k ≠ 0 then
      [Ev.kick (itp a_prev a_next D) (itp a_prev a_next K)
        (itp a_prev a_next (K + k))]
     else []) ++
    (if d ≠ 0 then
      [Ev.drift (itp a_prev a_next (K + k)) (itp a_prev a_next D)
        (itp a_prev a_next (D + d)),
       Ev.force (itp a_prev a_next (D + d))]
     else []) ++
    integrateAdjEventsGo a_prev a_next splits (D + d) (K + k)

/-- Kernel-call trace of `integrate_adj`: the split list is replayed in
reverse order. -/
def integrateAdjEvents (splits : List (ℚ × ℚ)) (a_prev a_next : ℚ) :
    List Ev :=
  integrateAdjEventsGo a_prev a_next splits.reverse 0 0

/-- Keep only the drift and kick calls of a trace. -/
def dkOnly (evs : List Ev) : List Ev :=
  evs.filter fun e => match e with
    | .force _ => false
    | _ => true

/-- Swap the interval endpoints of a drift or kick call. -/
def swapEv : Ev → Ev
  | .drift v p q => .drift v q p
  | .kick c p q => .kick c q p
  | .force a => .force a

/-- Intermediate scale factors formed by the drift and kick calls of a
trace, in order of computation (the upper endpoint of each call). -/
def intermsOf (evs : List Ev) : List ℚ :=
  (dkOnly evs).map fun e => match e with
    | .drift _ _ q => q
    | .kick _ _ q => q
    | .force a => a

/-! ### Co-evolution hooks, observer, and trajectory driver -/

/-- Formation physics hook (source `form`: a stub returning `None`). -/
def form (a_prev a_next : ℚ) (ptcl : Ptcl n) : Option Unit :=
  none

/-- Formation initialization hook (source `form_init`: a stub returning
`None`). -/
def form_init (a : ℚ) (ptcl : Ptcl n) : Option Unit :=
  none

/-- Co-evolve particle attributes over one step (source `coevolve`). -/
def coevolve (a_prev a_next : ℚ) (ptcl : Ptcl n) : Ptcl n :=
  { ptcl with attr := form a_prev a_next ptcl }

/-- Initialize co-evolving attributes (source `coevolve_init`). -/
def coevolve_init (a : ℚ) (ptcl : Ptcl n) : Ptcl n :=
  match ptcl.attr with
  | none => { ptcl with attr := form_init a ptcl }
  | some _ => ptcl

/-- Leftmost insertion point of `s` in a sorted list: the number of leading
elements strictly below `s` (models `jnp.searchsorted(xs, s, side='left')`
on sorted input). -/
def searchsortedLeft (xs : List ℚ) (s : ℚ) : ℕ :=
  match xs with
  | [] => 0
  | x :: rest => if x < s then searchsortedLeft rest s + 1 else 0

/-- Array indexing with the dynamic-index semantics of the source's array
library: a negative index wraps once, and the result is clamped into
range. -/
def nthWrap (xs : List ℚ) (i : ℤ) : ℚ :=
  let j : ℤ := if i < 0 then i + xs.length else i
  xs.getD (min j.toNat (xs.length - 1)) 0

/-- Bracket of a snapshot scale factor `s` in the schedule, as precomputed
by `observe_init` (source lines 230-231): entries at positions `idx - 1`
and `idx` for `idx = searchsorted(a_nbody, s, side='left')`. -/
def bracketFor (a_nbody : List ℚ) (s : ℚ) : ℚ × ℚ :=
  let idx := searchsortedLeft a_nbody s
  (nthWrap a_nbody ((idx : ℤ) - 1), nthWrap a_nbody (idx : ℤ))

/-- Snapshot bookkeeping carried by the observable buffer when snapshots
are configured: requested scale factors, the interpolated snapshot buffer
(displacement and velocity per snapshot), and the precomputed brackets. -/
structure SnapData (n : ℕ) where
  a_snaps : List ℚ
  snaps : List ((Fin n → ℚ) × (Fin n → ℚ))
  snap_a_step : List (ℚ × ℚ)

/-- Observable buffer: previous coarse-step particle state plus the
snapshot bookkeeping (present exactly when `conf.a_snapshots` is). -/
structure Obsvbl (n : ℕ) where
  ptcl_prev : Ptcl n
  snapData : Option (SnapData n)

/-- Initialize the observable buffer (source `observe_init`): record the
current particle state as previous state and, if snapshots are configured,
allocate a zeroed snapshot buffer and precompute each snapshot's bracket
from `conf.a_nbody`. -/
def observe_init (conf : Conf) (a : ℚ) (ptcl : Ptcl n) : Obsvbl n :=
  { ptcl_prev := ptcl
    snapData := conf.a_snapshots.map fun snl =>
      { a_snaps := snl
        snaps := List.replicate snl.length ((fun _ => 0), (fun _ => 0))
        snap_a_step := snl.map (bracketFor conf.a_nbody) } }

/-- Body of the observer's snapshot scan (source `while_loop` in
`observe`), as a recursion on the remaining count `j - i`: write the
interpolated snapshot at each index in `[i, j)`. -/
def observeLoop (ext : Ext n) (pPrev pCur : Ptcl n) (aPrev aNext : ℚ)
    (aSnaps : List ℚ) :
    ℕ → ℕ → List ((Fin n → ℚ) × (Fin n → ℚ)) →
      List ((Fin n → ℚ) × (Fin n → ℚ))
  | 0, _, snaps => snaps
  | fuel + 1, i, snaps =>
    let snapItp := ext.interp pPrev pCur aPrev aNext (aSnaps.getD i 0)
    observeLoop ext pPrev pCur aPrev aNext aSnaps fuel (i + 1)
      (snaps.set i snapItp)

/-- Emit the snapshots due in the current coarse interval and update the
previous-state field (source `observe`).  The source indexes the snapshot
arrays unconditionally; runs without configured snapshots only touch
`ptcl_prev`. -/
def observe (ext : Ext n) (a_prev a_next : ℚ) (ptcl : Ptcl n)
    (obsvbl : Obsvbl n) : Obsvbl n :=
  match obsvbl.snapData with
  | none => { obsvbl with ptcl_prev := ptcl }
  | some sd =>
    let i := searchsortedLeft sd.a_snaps a_prev
    let j := searchsortedLeft sd.a_snaps a_next
    let snaps' := observeLoop ext obsvbl.ptcl_prev ptcl a_prev a_next
      sd.a_snaps (j - i) i sd.snaps
    { ptcl_prev := ptcl, snapData := some { sd with snaps := snaps' } }

/-- Trajectory initialization (source `nbody_init`): initial force
evaluation, attribute initialization, observer initialization. -/
def nbody_init (ext : Ext n) (conf : Conf) (a : ℚ) (ptcl : Ptcl n) :
    Ptcl n × Obsvbl n :=
  let p := coevolve_init a (force ext a ptcl)
  (p, observe_init conf a p)

/-- One coarse step of the trajectory driver (source `nbody_step`):
integrate, co-evolve, observe. -/
def nbody_step (ext : Ext n) (conf : Conf) (a_prev a_next : ℚ)
    (st : Ptcl n × Obsvbl n) : Ptcl n × Obsvbl n :=
  let p := coevolve a_prev a_next (integrate ext conf a_prev a_next st.1)
  (p, observe ext a_prev a_next p st.2)

/-- Key under which a checkpoint is saved: the scale factor formatted to
three decimals, modelled as rounding `1000 * a` to the nearest integer. -/
def key3 (a : ℚ) : ℤ :=
  ⌊a * 1000 + 1 / 2⌋

/-- Save condition of the driver: some configured checkpoint lies within
absolute distance `1e-3` of the current scale factor. -/
def saveCond (a_save : Option (List ℚ)) (a : ℚ) : Bool :=
  match a_save with
  | none => false
  | some cps => cps.any fun c => |a - c| < 1 / 1000

/-- Insert into the dict of saved states: replace in place if the key is
present (source dict assignment), append otherwise. -/
def dictInsert {α : Type} (key : ℤ) (v : α) :
    List (ℤ × α) → List (ℤ × α)
  | [] => [(key, v)]
  | (k', v') :: rest =>
    if k' = key then (k', v) :: rest else (k', v') :: dictInsert key v rest

/-- Look a key up in the dict of saved states. -/
def dictLookup {α : Type} (key : ℤ) : List (ℤ × α) → Option α
  | [] => none
  | (k', v) :: rest => if k' = key then some v else dictLookup key rest

/-- Stepping loop of the driver (source loop over consecutive schedule
pairs): advance the state and save a full copy whenever the new scale
factor matches a checkpoint to tolerance. -/
def nbodyGo (ext : Ext n) (conf : Conf) :
    List ℚ → ℚ → Ptcl n × Obsvbl n → List (ℤ × (Ptcl n × Obsvbl n)) →
      (Ptcl n × Obsvbl n) × List (ℤ × (Ptcl n × Obsvbl n))
  | [], _, st, saves => (st, saves)
  | an :: rest, aPrev, st, saves =>
    let st' := nbody_step ext conf aPrev an st
    let saves' :=
      if saveCond conf.a_save an then dictInsert (key3 an) st' saves else saves
    nbodyGo ext conf rest an st' saves'

/-- Full forward run: final state together with the dict of checkpoint
saves (source `nbody`, both return shapes at once).  An empty schedule,
on which the source would fail indexing `a_nbody[0]`, returns the input
unchanged. -/
def nbodyRun (ext : Ext n) (conf : Conf) (reverse : Bool) (ptcl : Ptcl n) :
    (Ptcl n × Obsvbl n) × List (ℤ × (Ptcl n × Obsvbl n)) :=
  let as := if reverse then conf.a_nbody.reverse else conf.a_nbody
  match as with
  | [] => ((ptcl, { ptcl_prev := ptcl, snapData := none }), [])
  | a0 :: rest =>
    let st0 := nbody_init ext conf a0 ptcl
    let saves0 :=
      if saveCond conf.a_save a0 then [(key3 a0, st0)] else []
    nbodyGo ext conf rest a0 st0 saves0

/-- N-body time integration (source `nbody`): the result is the dict of
checkpoint saves when checkpoints are configured, the final state
otherwise. -/
def nbody (ext : Ext n) (conf : Conf) (reverse : Bool) (ptcl : Ptcl n) :
    (Ptcl n × Obsvbl n) ⊕ List (ℤ × (Ptcl n × Obsvbl n)) :=
  let r := nbodyRun ext conf reverse ptcl
  match conf.a_save with
  | none => Sum.inl r.1
  | some _ => Sum.inr r.2

/-- States of the forward run after each schedule entry (initialization
state first, then one state per coarse step). -/
def nbodyStatesGo (ext : Ext n) (conf : Conf) :
    List ℚ → ℚ → Ptcl n × Obsvbl n → List (Ptcl n × Obsvbl n)
  | [], _, _ => []
  | an :: rest, aPrev, st =>
    let st' := nbody_step ext conf aPrev an st
    st' :: nbodyStatesGo ext conf rest an st'

/-- The state the forward run holds at each entry of the schedule `as`. -/
def nbodyStates (ext : Ext n) (conf : Conf) (as : List ℚ) (ptcl : Ptcl n) :
    List (Ptcl n × Obsvbl n) :=
  match as with
  | [] => []
  | a0 :: rest =>
    let st0 := nbody_init ext conf a0 ptcl
    st0 :: nbodyStatesGo ext conf rest a0 st0

/-- Checkpoint saves of the forward run, in schedule order (one candidate
entry per stepped-to scale factor meeting the save condition). -/
def savesGo (ext : Ext n) (conf : Conf) :
    List ℚ → ℚ → Ptcl n × Obsvbl n → List (ℤ × (Ptcl n × Obsvbl n))
  | [], _, _ => []
  | an :: rest, aPrev, st =>
    let st' := nbody_step ext conf aPrev an st
    (if saveCond conf.a_save an then [(key3 an, st')] else []) ++
      savesGo ext conf rest an st'

/-! ### Concrete collaborator instances used by counterexamples and
witnesses -/

/-- Concrete collaborators: growth factor `D(a) = a` with unit first
derivative, unit expansion rate, gravity identically zero. -/
def extC : Ext 1 :=
  { growth := fun a d => if d = 0 then a else if d = 1 then 1 else 0
    E2 := fun _ => 1
    sqrt := fun x => x
    H_deriv := fun _ => 0
    gravity := fun _ _ _ => fun _ => 0
    gravity_vjp := fun _ _ _ _ => (fun _ => 0, 0)
    dDriftFactor := fun _ _ _ => 0
    dKickFactor := fun _ _ _ => 0
    interp := fun _ _ _ _ _ => (fun _ => 0, fun _ => 0) }

/-- Concrete particle: one particle at the origin with unit velocity. -/
def ptclC : Ptcl 1 :=
  { pmid := fun _ => 0
    disp := fun _ => 0
    vel := fun _ => 1
    acc := fun _ => 0
    attr := none }

/-! ### Basic lemmas -/

theorem itp_zero (a b : ℚ) : itp a b 0 = a := by
  unfold itp; ring

theorem itp_one (a b : ℚ) : itp a b 1 = b := by
  unfold itp; ring

theorem itp_one_sub (a b t : ℚ) : itp b a (1 - t) = itp a b t := by
  unfold itp; ring

/-! ### Claim C5 -/

/-- C5: `drift_factor` is `(D(a_next) - D(a_prev)) / G_D(a_vel)` and
`kick_factor` is `(G_D(a_next) - G_D(a_prev)) / G_K(a_acc)`, with
`G_D(a) = a^2 sqrt(E2(a)) D'(a)` and
`G_K(a) = a^3 E2(a) (D''(a) + (2 + Hdot(a)) D'(a))` in terms of the
external growth and expansion-rate collaborators; both factors vanish
whenever `a_prev = a_next`. -/
theorem factors_closed_form (ext : Ext n) (a_vel a_acc a_prev a_next : ℚ) :
    drift_factor ext a_vel a_prev a_next =
      (ext.growth a_next 0 - ext.growth a_prev 0) /
        (a_vel ^ 2 * ext.sqrt (ext.E2 a_vel) * ext.growth a_vel 1) ∧
    kick_factor ext a_acc a_prev a_next =
      (a_next ^ 2 * ext.sqrt (ext.E2 a_next) * ext.growth a_next 1 -
          a_prev ^ 2 * ext.sqrt (ext.E2 a_prev) * ext.growth a_prev 1) /
        (a_acc ^ 3 * ext.E2 a_acc *
          (ext.growth a_acc 2 + (2 + ext.H_deriv a_acc) * ext.growth a_acc 1)) ∧
    (a_prev = a_next →
      drift_factor ext a_vel a_prev a_next = 0 ∧
      kick_factor ext a_acc a_prev a_next = 0) := by
  refine ⟨rfl, rfl, ?_⟩
  rintro rfl
  simp [drift_factor, kick_factor]

/-- Witness for C5 at a concrete cosmology and coinciding interval
endpoints. -/
theorem factors_closed_form_witness :
    drift_factor extC 1 (3 / 2) (3 / 2) = 0 ∧
    kick_factor extC 2 (3 / 2) (3 / 2) = 0 :=
  (factors_closed_form extC 1 2 (3 / 2) (3 / 2)).2.2 rfl

/-! ### Claim C1 -/

/-- The forward loop with consistent accumulators runs exactly the spec's
event walk. -/
theorem integrateGo_eq_runEv (ext : Ext n) (a0 a1 : ℚ)
    (splits : List (ℚ × ℚ)) :
    ∀ (D K : ℚ) (ptcl : Ptcl n),
      integrateGo ext a0 a1 splits D K (itp a0 a1 D) (itp a0 a1 K)
          (itp a0 a1 D) ptcl
        = runEv ext (integrateEvents a0 a1 splits D K) ptcl := by
  induction splits with
  | nil => intro D K ptcl; rfl
  | cons dk splits ih =>
    obtain ⟨d, k⟩ := dk
    intro D K ptcl
    by_cases hd : d = 0 <;> by_cases hk : k = 0 <;>
      simp only [integrateGo, integrateEvents, hd, hk, ne_eq,
        not_true_eq_false, not_false_eq_true, if_true, if_false,
        ite_true, ite_false, add_zero, runEv, List.foldl_append,
        List.foldl_cons, List.foldl_nil, List.nil_append, applyEv] <;>
      exact ih _ _ _

/-- C1: `integrate` walks the split list in order with running fractions
`D` and `K` starting at 0: each entry with nonzero drift weight advances
`D`, drifts to the intermediate scale factor `a_prev (1 - D) + a_next D`
and immediately refreshes the force there; each entry with nonzero kick
weight advances `K` and kicks at the most recently refreshed acceleration
scale factor; zero-weight entries emit no kernel call. -/
theorem integrate_walks_split_list (ext : Ext n) (conf : Conf)
    (a_prev a_next : ℚ) (ptcl : Ptcl n) :
    integrate ext conf a_prev a_next ptcl
      = runEv ext (integrateEvents a_prev a_next conf.symp_splits 0 0) ptcl ∧
    ∀ (splits : List (ℚ × ℚ)) (D K : ℚ),
      integrateEvents a_prev a_next ((0, 0) :: splits) D K
        = integrateEvents a_prev a_next splits D K := by
  constructor
  · have h := integrateGo_eq_runEv ext a_prev a_next conf.symp_splits 0 0 ptcl
    rwa [itp_zero] at h
  · intro splits D K
    simp [integrateEvents]

/-! ### Claim C2 -/

/-- The adjoint loop with consistent accumulators runs exactly the adjoint
event walk. -/
theorem integrateAdjGo_eq_runAdjEv (ext : Ext n) (a0 a1 : ℚ)
    (l : List (ℚ × ℚ)) :
    ∀ (D K : ℚ) (st : Ptcl n × PtclCot n × ℚ × ℚ),
      integrateAdjGo ext a0 a1 l D K (itp a0 a1 D) (itp a0 a1 K)
          (itp a0 a1 D) st
        = runAdjEv ext (integrateAdjEventsGo a0 a1 l D K) st := by
  induction l with
  | nil => intro D K st; rfl
  | cons dk l ih =>
    obtain ⟨d, k⟩ := dk
    intro D K st
    by_cases hd : d = 0 <;> by_cases hk : k = 0 <;>
      simp only [integrateAdjGo, integrateAdjEventsGo, hd, hk, ne_eq,
        not_true_eq_false, not_false_eq_true, if_true, if_false,
        ite_true, ite_false, add_zero, runAdjEv, List.foldl_append,
        List.foldl_cons, List.foldl_nil, List.nil_append, applyAdjEv] <;>
      exact ih _ _ _

/-- Total drift weight of a split list. -/
def sumD (l : List (ℚ × ℚ)) : ℚ :=
  (l.map Prod.fst).sum

/-- Total kick weight of a split list. -/
def sumK (l : List (ℚ × ℚ)) : ℚ :=
  (l.map Prod.snd).sum

theorem sumD_cons (p : ℚ × ℚ) (l : List (ℚ × ℚ)) :
    sumD (p :: l) = p.1 + sumD l := by
  simp [sumD]

theorem sumK_cons (p : ℚ × ℚ) (l : List (ℚ × ℚ)) :
    sumK (p :: l) = p.2 + sumK l := by
  simp [sumK]

theorem sumD_reverse (l : List (ℚ × ℚ)) : sumD l.reverse = sumD l := by
  simp [sumD, List.map_reverse, List.sum_reverse]

theorem sumK_reverse (l : List (ℚ × ℚ)) : sumK l.reverse = sumK l := by
  simp [sumK, List.map_reverse, List.sum_reverse]

theorem dkOnly_nil : dkOnly [] = [] :=
  rfl

theorem dkOnly_append (a b : List Ev) :
    dkOnly (a ++ b) = dkOnly a ++ dkOnly b := by
  simp [dkOnly]

theorem dkOnly_cons_drift (v p q : ℚ) (l : List Ev) :
    dkOnly (Ev.drift v p q :: l) = Ev.drift v p q :: dkOnly l :=
  rfl

theorem dkOnly_cons_kick (c p q : ℚ) (l : List Ev) :
    dkOnly (Ev.kick c p q :: l) = Ev.kick c p q :: dkOnly l :=
  rfl

theorem dkOnly_cons_force (a : ℚ) (l : List Ev) :
    dkOnly (Ev.force a :: l) = dkOnly l :=
  rfl

/-- Accumulator bookkeeping of the adjoint event walk over an appended
list. -/
theorem integrateAdjEventsGo_append (a0 a1 : ℚ) (xs ys : List (ℚ × ℚ)) :
    ∀ D K : ℚ,
      integrateAdjEventsGo a0 a1 (xs ++ ys) D K
        = integrateAdjEventsGo a0 a1 xs D K
          ++ integrateAdjEventsGo a0 a1 ys (D + sumD xs) (K + sumK xs) := by
  induction xs with
  | nil =>
    intro D K
    simp [integrateAdjEventsGo, sumD, sumK]
  | cons dk xs ih =>
    obtain ⟨d, k⟩ := dk
    intro D K
    simp only [List.cons_append, integrateAdjEventsGo, List.append_eq, ih,
      sumD_cons, sumK_cons, List.append_assoc, add_assoc]

/-- Pairing of adjoint and forward drift/kick calls: over the reversed
interval, with drift and kick weights each summing (together with the
accumulator offsets) to 1, the adjoint walk's drift/kick trace is the
reverse of the forward trace with each call's interval endpoints
swapped. -/
theorem adjEventsGo_corr (a0 a1 : ℚ) (l : List (ℚ × ℚ)) :
    ∀ Da Ka Df Kf : ℚ,
      Da + Df + sumD l = 1 → Ka + Kf + sumK l = 1 →
      dkOnly (integrateAdjEventsGo a1 a0 l.reverse Da Ka)
        = ((dkOnly (integrateEvents a0 a1 l Df Kf)).map swapEv).reverse := by
  induction l with
  | nil => intro Da Ka Df Kf hD hK; rfl
  | cons dk l ih =>
    obtain ⟨d, k⟩ := dk
    intro Da Ka Df Kf hD hK
    simp only [sumD_cons, sumK_cons] at hD hK
    rw [List.reverse_cons, integrateAdjEventsGo_append, sumD_reverse,
      sumK_reverse]
    by_cases hd : d = 0 <;> by_cases hk : k = 0
    · -- both weights zero: no calls on either side
      subst hd; subst hk
      have hrec := ih Da Ka Df Kf (by linarith) (by linarith)
      simp [integrateAdjEventsGo, integrateEvents, dkOnly_append, dkOnly_nil,
        dkOnly_cons_drift, dkOnly_cons_kick, dkOnly_cons_force, hrec]
    · -- kick only
      subst hd
      have eD : itp a1 a0 (Da + sumD l) = itp a0 a1 Df := by
        rw [show Da + sumD l = 1 - Df by linarith, itp_one_sub]
      have e2 : itp a1 a0 (Ka + sumK l) = itp a0 a1 (Kf + k) := by
        rw [show Ka + sumK l = 1 - (Kf + k) by linarith, itp_one_sub]
      have e3 : itp a1 a0 (Ka + sumK l + k) = itp a0 a1 Kf := by
        rw [show Ka + sumK l + k = 1 - Kf by linarith, itp_one_sub]
      have hrec := ih Da Ka Df (Kf + k) (by linarith) (by linarith)
      simp [integrateAdjEventsGo, integrateEvents, dkOnly_append, dkOnly_nil,
        dkOnly_cons_drift, dkOnly_cons_kick, dkOnly_cons_force, swapEv, hk,
        eD, e2, e3, hrec]
    · -- drift only
      subst hk
      have e1 : itp a1 a0 (Da + sumD l) = itp a0 a1 (Df + d) := by
        rw [show Da + sumD l = 1 - (Df + d) by linarith, itp_one_sub]
      have e4 : itp a1 a0 (Da + sumD l + d) = itp a0 a1 Df := by
        rw [show Da + sumD l + d = 1 - Df by linarith, itp_one_sub]
      have eV : itp a1 a0 (Ka + sumK l) = itp a0 a1 Kf := by
        rw [show Ka + sumK l = 1 - Kf by linarith, itp_one_sub]
      have hrec := ih Da Ka (Df + d) Kf (by linarith) (by linarith)
      simp [integrateAdjEventsGo, integrateEvents, dkOnly_append, dkOnly_nil,
        dkOnly_cons_drift, dkOnly_cons_kick, dkOnly_cons_force, swapEv, hd,
        e1, e4, eV, hrec]
    · -- both nonzero
      have e1 : itp a1 a0 (Da + sumD l) = itp a0 a1 (Df + d) := by
        rw [show Da + sumD l = 1 - (Df + d) by linarith, itp_one_sub]
      have e2 : itp a1 a0 (Ka + sumK l) = itp a0 a1 (Kf + k) := by
        rw [show Ka + sumK l = 1 - (Kf + k) by linarith, itp_one_sub]
      have e3 : itp a1 a0 (Ka + sumK l + k) = itp a0 a1 Kf := by
        rw [show Ka + sumK l + k = 1 - Kf by linarith, itp_one_sub]
      have e4 : itp a1 a0 (Da + sumD l + d) = itp a0 a1 Df := by
        rw [show Da + sumD l + d = 1 - Df by linarith, itp_one_sub]
      have hrec := ih Da Ka (Df + d) (Kf + k) (by linarith) (by linarith)
      simp [integrateAdjEventsGo, integrateEvents, dkOnly_append, dkOnly_nil,
        dkOnly_cons_drift, dkOnly_cons_kick, dkOnly_cons_force, swapEv, hd,
        hk, e1, e2, e3, e4, hrec]

/-- C2 counterexample: over the same interval arguments, the sequence of
intermediate scale factors computed by `integrate_adj`'s walk differs from
the forward sequence (split list `[(1/2, 3/10), (1/2, 7/10)]`, interval
from 0 to 1: the adjoint computes `[7/10, 1/2, 1, 1]`, the forward walk
`[1/2, 3/10, 1, 1]`). -/
theorem integrateAdj_intermediates_ne_forward :
    intermsOf (integrateAdjEvents [((1 : ℚ) / 2, 3 / 10), (1 / 2, 7 / 10)] 0 1)
      ≠ intermsOf
          (integrateEvents 0 1 [((1 : ℚ) / 2, 3 / 10), (1 / 2, 7 / 10)] 0 0) := by
  norm_num [intermsOf, integrateAdjEvents, integrateAdjEventsGo,
    integrateEvents, dkOnly, swapEv, itp]

/-- C2 amended: `integrate_adj` replays the split list in reverse order
with `kick_adj` before `drift_adj` inside each entry (the adjoint event
walk), and when it is invoked on the reversed interval — as the adjoint
driver does — and the drift and kick weights each sum to 1, its drift and
kick calls are exactly the forward walk's calls in reverse order with the
interval endpoints of each call swapped (so each adjoint kernel call is
paired with the forward call at the same two scale factors). -/
theorem integrateAdj_reverse_pairing (ext : Ext n) (conf : Conf)
    (a_prev a_next : ℚ) :
    (∀ st : Ptcl n × PtclCot n × ℚ × ℚ,
      integrate_adj ext conf a_prev a_next st
        = runAdjEv ext (integrateAdjEvents conf.symp_splits a_prev a_next) st) ∧
    (sumD conf.symp_splits = 1 → sumK conf.symp_splits = 1 →
      dkOnly (integrateAdjEvents conf.symp_splits a_next a_prev)
        = ((dkOnly (integrateEvents a_prev a_next conf.symp_splits 0 0)).map
            swapEv).reverse) := by
  constructor
  · intro st
    have h := integrateAdjGo_eq_runAdjEv ext a_prev a_next
      conf.symp_splits.reverse 0 0 st
    rw [itp_zero] at h
    exact h
  · intro hD hK
    have h := adjEventsGo_corr a_prev a_next conf.symp_splits 0 0 0 0
      (by simpa using hD) (by simpa using hK)
    simpa [integrateAdjEvents] using h

/-- Witness for C2 (amended) at the leapfrog split list over the interval
from 0 to 1. -/
theorem integrateAdj_reverse_pairing_witness :
    dkOnly (integrateAdjEvents [((1 : ℚ) / 2, 1), (1 / 2, 0)] 1 0)
      = ((dkOnly (integrateEvents 0 1 [((1 : ℚ) / 2, 1), (1 / 2, 0)] 0 0)).map
          swapEv).reverse :=
  (integrateAdj_reverse_pairing extC
      ⟨[((1 : ℚ) / 2, 1), (1 / 2, 0)], [], none, none⟩ 0 1).2
    (by norm_num [sumD]) (by norm_num [sumK])

/-! ### Claim C3 -/

/-- C3: `kick_adj` computes `vel' = vel + acc * kick_factor`, replaces the
displacement slot of the particle cotangent by
`disp_cot - acc_cot * kick_factor`, and subtracts from the running
cosmology cotangent the sum of the kick-factor gradient scaled by the
inner product of the velocity cotangent with the acceleration and the
deferred force cosmology cotangent scaled by the kick factor. -/
theorem kickAdj_formulas (ext : Ext n) (a_acc a_prev a_next : ℚ)
    (ptcl : Ptcl n) (pcot : PtclCot n) (ccot ccf : ℚ) :
    kick_adj ext a_acc a_prev a_next ptcl pcot ccot ccf =
      ({ ptcl with
          vel := fun i =>
            ptcl.vel i + ptcl.acc i * kick_factor ext a_acc a_prev a_next },
       { pcot with
          disp := fun i =>
            pcot.disp i - pcot.acc i * kick_factor ext a_acc a_prev a_next },
       ccot -
         (ext.dKickFactor a_acc a_prev a_next * (∑ i, pcot.vel i * ptcl.acc i)
           + ccf * kick_factor ext a_acc a_prev a_next)) :=
  rfl

/-! ### Claim C4 -/

/-- C4: `force_adj` performs one reverse pass through the gravity solver
yielding both pullbacks at once: the displacement pullback of the incoming
cotangent seed is stored in the `acc` slot of the particle cotangent, and
the cosmology pullback is returned as a separate value, not folded into any
running total. -/
theorem forceAdj_single_pullback (ext : Ext n) (a : ℚ) (ptcl : Ptcl n)
    (pcot : PtclCot n) :
    force_adj ext a ptcl pcot =
      ({ ptcl with acc := ext.gravity a ptcl.pmid ptcl.disp },
       { pcot with
          acc := (ext.gravity_vjp a ptcl.pmid ptcl.disp pcot.vel).1 },
       (ext.gravity_vjp a ptcl.pmid ptcl.disp pcot.vel).2) :=
  rfl

/-! ### Claim C6 -/

theorem searchsortedLeft_cons (x : ℚ) (rest : List ℚ) (s : ℚ) :
    searchsortedLeft (x :: rest) s
      = if x < s then searchsortedLeft rest s + 1 else 0 :=
  rfl

theorem searchsortedLeft_pos (xs : List ℚ) (s : ℚ) (hne : xs ≠ [])
    (hlo : xs.getD 0 0 < s) : 1 ≤ searchsortedLeft xs s := by
  cases xs with
  | nil => exact absurd rfl hne
  | cons x rest =>
    simp only [List.getD_cons_zero] at hlo
    simp [searchsortedLeft, if_pos hlo]

theorem searchsortedLeft_lt_length (xs : List ℚ) (s : ℚ) :
    xs ≠ [] → s ≤ xs.getD (xs.length - 1) 0 →
    searchsortedLeft xs s < xs.length := by
  induction xs with
  | nil => intro hne _; exact absurd rfl hne
  | cons x rest ih =>
    intro _ hhi
    by_cases hx : x < s
    · cases rest with
      | nil =>
        simp only [List.length_cons, List.length_nil, Nat.zero_add,
          Nat.sub_self, List.getD_cons_zero] at hhi
        exact absurd hx (not_lt.mpr hhi)
      | cons y t =>
        have hhi' : s ≤ (y :: t).getD ((y :: t).length - 1) 0 := by
          simpa [List.length_cons] using hhi
        have h := ih (by simp) hhi'
        rw [searchsortedLeft_cons, if_pos hx]
        simp only [List.length_cons] at h ⊢
        omega
    · simp [searchsortedLeft, if_neg hx]

theorem searchsortedLeft_pred_lt (xs : List ℚ) (s : ℚ) :
    1 ≤ searchsortedLeft xs s →
    xs.getD (searchsortedLeft xs s - 1) 0 < s := by
  induction xs with
  | nil => intro h; simp [searchsortedLeft] at h
  | cons x rest ih =>
    intro h1
    by_cases hx : x < s
    · simp only [searchsortedLeft, if_pos hx] at h1 ⊢
      cases hsr : searchsortedLeft rest s with
      | zero => simpa [hsr] using hx
      | succ m =>
        have := ih (by omega)
        rw [hsr] at this
        simpa [hsr] using this
    · simp only [searchsortedLeft, if_neg hx] at h1
      omega

theorem le_searchsortedLeft_getD (xs : List ℚ) (s : ℚ) :
    searchsortedLeft xs s < xs.length →
    s ≤ xs.getD (searchsortedLeft xs s) 0 := by
  induction xs with
  | nil => intro h; simp [searchsortedLeft] at h
  | cons x rest ih =>
    intro hlt
    by_cases hx : x < s
    · simp only [searchsortedLeft, if_pos hx, List.length_cons] at hlt ⊢
      simpa using ih (by omega)
    · simpa [searchsortedLeft, if_neg hx] using not_lt.mp hx

theorem nthWrap_of_nonneg_lt (xs : List ℚ) (i : ℤ) (h0 : 0 ≤ i)
    (h : i < xs.length) : nthWrap xs i = xs.getD i.toNat 0 := by
  simp only [nthWrap]
  rw [if_neg (by omega)]
  congr 1
  omega

/-- C6: for a strictly monotonic schedule and a requested snapshot scale
factor `s` inside the schedule's covered range, the bracket precomputed at
observer initialization consists of the two adjacent schedule entries at
positions `idx - 1` and `idx` (`idx` the leftmost insertion point of `s`),
and they satisfy `left < s` and `s ≤ right`. -/
theorem bracket_invariant (xs : List ℚ) (s : ℚ)
    (hmono : List.Chain' (· < ·) xs) (hne : xs ≠ [])
    (hlo : xs.getD 0 0 < s) (hhi : s ≤ xs.getD (xs.length - 1) 0) :
    1 ≤ searchsortedLeft xs s ∧
    searchsortedLeft xs s < xs.length ∧
    bracketFor xs s
      = (xs.getD (searchsortedLeft xs s - 1) 0,
         xs.getD (searchsortedLeft xs s) 0) ∧
    (bracketFor xs s).1 < s ∧ s ≤ (bracketFor xs s).2 := by
  have h1 := searchsortedLeft_pos xs s hne hlo
  have h2 := searchsortedLeft_lt_length xs s hne hhi
  have hbr : bracketFor xs s
      = (xs.getD (searchsortedLeft xs s - 1) 0,
         xs.getD (searchsortedLeft xs s) 0) := by
    simp only [bracketFor]
    rw [nthWrap_of_nonneg_lt xs _ (by omega) (by omega),
      nthWrap_of_nonneg_lt xs _ (by omega) (by omega)]
    congr 2 <;> omega
  refine ⟨h1, h2, hbr, ?_, ?_⟩
  · rw [hbr]
    exact searchsortedLeft_pred_lt xs s h1
  · rw [hbr]
    exact le_searchsortedLeft_getD xs s h2

/-- Witness for C6 on the schedule `[1/4, 1/2, 1]` with snapshot scale
factor `1/3`. -/
theorem bracket_invariant_witness :
    1 ≤ searchsortedLeft [(1 : ℚ) / 4, 1 / 2, 1] (1 / 3) ∧
    searchsortedLeft [(1 : ℚ) / 4, 1 / 2, 1] (1 / 3)
      < ([(1 : ℚ) / 4, 1 / 2, 1]).length ∧
    bracketFor [(1 : ℚ) / 4, 1 / 2, 1] (1 / 3)
      = (([(1 : ℚ) / 4, 1 / 2, 1]).getD
          (searchsortedLeft [(1 : ℚ) / 4, 1 / 2, 1] (1 / 3) - 1) 0,
         ([(1 : ℚ) / 4, 1 / 2, 1]).getD
          (searchsortedLeft [(1 : ℚ) / 4, 1 / 2, 1] (1 / 3)) 0) ∧
    (bracketFor [(1 : ℚ) / 4, 1 / 2, 1] (1 / 3)).1 < 1 / 3 ∧
    (1 : ℚ) / 3 ≤ (bracketFor [(1 : ℚ) / 4, 1 / 2, 1] (1 / 3)).2 :=
  bracket_invariant [(1 : ℚ) / 4, 1 / 2, 1] (1 / 3)
    (by norm_num [List.chain'_cons]) (by simp)
    (by norm_num) (by norm_num)

/-! ### Claim C8 -/

/-- Force evaluations agree on states with the same positions, velocities
and attributes (force replaces the acceleration wholesale). -/
theorem force_eq_of (ext : Ext n) (c : ℚ) {y x : Ptcl n}
    (hp : y.pmid = x.pmid) (hd : y.disp = x.disp) (hv : y.vel = x.vel)
    (ha : y.attr = x.attr) : force ext c y = force ext c x := by
  obtain ⟨yp, yd, yv, ya, yt⟩ := y
  obtain ⟨xp, xd, xv, xa, xt⟩ := x
  simp only at hp hd hv ha
  subst hp; subst hd; subst hv; subst ha
  simp [force]

/-- A drift and its endpoint-swapped drift cancel under an enclosing force
refresh: the displacement returns exactly, and the trailing force only sees
the restored positions. -/
theorem force_drift_unwind (ext : Ext n) (av b c p q : ℚ) (x : Ptcl n) :
    force ext c (drift ext av q p (force ext b (drift ext av p q x)))
      = force ext c x := by
  refine force_eq_of ext c rfl ?_ rfl rfl
  funext i
  simp only [drift, force, drift_factor]
  ring

/-- Refreshing the force is idempotent across a kick (which changes neither
positions nor the force's inputs). -/
theorem force_kick_force (ext : Ext n) (b c p q : ℚ) (x : Ptcl n) :
    force ext b (kick ext c p q (force ext b x))
      = kick ext c p q (force ext b x) := by
  ext i <;> rfl

/-- A kick and its endpoint-swapped kick cancel (the acceleration is
unchanged by a kick). -/
theorem kick_unwind (ext : Ext n) (c p q : ℚ) (x : Ptcl n) :
    kick ext c q p (kick ext c p q x) = x := by
  ext i
  · rfl
  · rfl
  · simp only [kick, kick_factor]
    ring
  · rfl
  · rfl

/-- C8 counterexample: with the split list `[(1, 1)]` (drift and kick
weights each summing to 1), the growth collaborators of `extC`, and the
interval from 1 to 2, integrating forward and then over the reversed
interval moves the particle displacement from 0 to 3/4, not back to 0. -/
theorem integrate_roundtrip_fails :
    (integrate extC ⟨[(1, 1)], [], none, none⟩ 2 1
        (integrate extC ⟨[(1, 1)], [], none, none⟩ 1 2 ptclC)).disp 0
      ≠ ptclC.disp 0 := by
  norm_num [integrate, integrateGo, drift, kick, force, drift_factor,
    kick_factor, G_D, G_K, itp, extC, ptclC]

/-- C8 amended: for the leapfrog split list `[(1/2, 1), (1/2, 0)]`, if the
input acceleration is consistent with the gravity solver at the starting
scale factor (as `nbody_init` establishes), then integrating over
`[a0, a1]` and then over the reversed interval `[a1, a0]` returns exactly
the original particle state; for general split lists the round trip can
move the state (see the counterexample). -/
theorem integrate_leapfrog_reversible (ext : Ext n) (conf : Conf)
    (a0 a1 : ℚ) (ptcl : Ptcl n)
    (hsplits : conf.symp_splits = [(1 / 2, 1), (1 / 2, 0)])
    (hacc : ptcl.acc = ext.gravity a0 ptcl.pmid ptcl.disp) :
    integrate ext conf a1 a0 (integrate ext conf a0 a1 ptcl) = ptcl := by
  have hhalf : itp a1 a0 (1 / 2 : ℚ) = itp a0 a1 (1 / 2) := by
    unfold itp; ring
  have hfwd : integrate ext conf a0 a1 ptcl
      = force ext a1 (drift ext a1 (itp a0 a1 (1 / 2)) a1
          (kick ext (itp a0 a1 (1 / 2)) a0 a1
            (force ext (itp a0 a1 (1 / 2))
              (drift ext a0 a0 (itp a0 a1 (1 / 2)) ptcl)))) := by
    norm_num [integrate, hsplits, integrateGo, itp_one]
  have hbwd : ∀ x : Ptcl n, integrate ext conf a1 a0 x
      = force ext a0 (drift ext a0 (itp a0 a1 (1 / 2)) a0
          (kick ext (itp a0 a1 (1 / 2)) a1 a0
            (force ext (itp a0 a1 (1 / 2))
              (drift ext a1 a1 (itp a0 a1 (1 / 2)) x)))) := by
    intro x
    norm_num [integrate, hsplits, integrateGo, itp_one, hhalf]
  rw [hfwd, hbwd, force_drift_unwind, force_kick_force, kick_unwind,
    force_drift_unwind]
  refine Ptcl.ext rfl rfl rfl ?_ rfl
  exact hacc.symm

/-- Witness for C8 (amended): concrete round trip at the leapfrog split
with consistent input acceleration. -/
theorem integrate_leapfrog_reversible_witness :
    integrate extC ⟨[(1 / 2, 1), (1 / 2, 0)], [], none, none⟩ 2 1
        (integrate extC ⟨[(1 / 2, 1), (1 / 2, 0)], [], none, none⟩ 1 2 ptclC)
      = ptclC :=
  integrate_leapfrog_reversible extC _ 1 2 ptclC rfl rfl

/-! ### Claim C7 -/

theorem dictInsert_fresh {α : Type} (key : ℤ) (v : α) (m : List (ℤ × α))
    (h : key ∉ m.map Prod.fst) : dictInsert key v m = m ++ [(key, v)] := by
  induction m with
  | nil => rfl
  | cons p rest ih =>
    obtain ⟨k', v'⟩ := p
    simp only [List.map_cons, List.mem_cons, not_or] at h
    rw [dictInsert, if_neg fun e => h.1 e.symm, ih h.2]
    rfl

theorem key3_eq_close {a c : ℚ} (h : key3 a = key3 c) :
    |a - c| < 1 / 1000 := by
  unfold key3 at h
  have h1 := Int.floor_le (a * 1000 + 1 / 2)
  have h2 := Int.lt_floor_add_one (a * 1000 + 1 / 2)
  have h3 := Int.floor_le (c * 1000 + 1 / 2)
  have h4 := Int.lt_floor_add_one (c * 1000 + 1 / 2)
  rw [h] at h1 h2
  rw [abs_lt]
  constructor <;> linarith

theorem saveCond_self {cps : List ℚ} {a : ℚ} (h : a ∈ cps) :
    saveCond (some cps) a = true := by
  simp only [saveCond, List.any_eq_true, decide_eq_true_eq]
  exact ⟨a, h, by norm_num⟩

theorem mem_of_saveCond {cps as : List ℚ} {a : ℚ}
    (hsep : ∀ c ∈ cps, ∀ x ∈ as, |x - c| < 1 / 1000 → x = c)
    (ha : a ∈ as) (h : saveCond (some cps) a = true) : a ∈ cps := by
  simp only [saveCond, List.any_eq_true, decide_eq_true_eq] at h
  obtain ⟨c, hc, hlt⟩ := h
  exact (hsep c hc a ha hlt) ▸ hc

/-- With all to-be-saved keys fresh and pairwise distinct, the driver's
save dict is the initial dict followed by the run's saves in order. -/
theorem nbodyGo_snd (ext : Ext n) (conf : Conf) :
    ∀ (rest : List ℚ) (aPrev : ℚ) (st : Ptcl n × Obsvbl n)
      (m : List (ℤ × (Ptcl n × Obsvbl n))),
      (∀ a ∈ rest, saveCond conf.a_save a = true →
        key3 a ∉ m.map Prod.fst) →
      ((rest.filter fun a => saveCond conf.a_save a).map key3).Nodup →
      (nbodyGo ext conf rest aPrev st m).2
        = m ++ savesGo ext conf rest aPrev st := by
  intro rest
  induction rest with
  | nil => intro aPrev st m _ _; simp [nbodyGo, savesGo]
  | cons an rest ih =>
    intro aPrev st m hfresh hnd
    cases hc : saveCond conf.a_save an with
    | false =>
      rw [nbodyGo, savesGo]
      simp only [hc, Bool.false_eq_true, if_false, if_neg, List.nil_append]
      rw [ih _ _ _ (fun a ha hca => hfresh a (List.mem_cons_of_mem _ ha) hca)
        (by simpa [List.filter_cons, hc] using hnd)]
    | true =>
      rw [nbodyGo, savesGo]
      simp only [hc, if_true, if_pos]
      rw [dictInsert_fresh _ _ _ (hfresh an (List.mem_cons_self _ _) hc)]
      have hnd' := hnd
      rw [List.filter_cons_of_pos (by simp [hc])] at hnd'
      simp only [List.map_cons, List.nodup_cons] at hnd'
      rw [ih _ _ _ ?_ hnd'.2]
      · simp
      · intro a ha hca
        simp only [List.map_append, List.map_cons, List.map_nil,
          List.mem_append, List.mem_cons, not_or]
        refine ⟨fun hmem => hfresh a (List.mem_cons_of_mem _ ha) hca hmem, ?_, by simp⟩
        intro he
        exact hnd'.1 (he ▸ List.mem_map_of_mem key3
          (List.mem_filter.2 ⟨ha, by simp [hca]⟩))

/-- The driver's final state does not depend on the save dict and is the
last of the stepped-state sequence. -/
theorem nbodyGo_fst (ext : Ext n) (conf : Conf) :
    ∀ (rest : List ℚ) (aPrev : ℚ) (st : Ptcl n × Obsvbl n)
      (m : List (ℤ × (Ptcl n × Obsvbl n))),
      (nbodyGo ext conf rest aPrev st m).1
        = (nbodyStatesGo ext conf rest aPrev st).getLastD st := by
  intro rest
  induction rest with
  | nil => intro aPrev st m; rfl
  | cons an rest ih =>
    intro aPrev st m
    rw [nbodyGo, nbodyStatesGo]
    rw [List.getLastD_cons]
    exact ih _ _ _

theorem savesGo_length (ext : Ext n) (conf : Conf) :
    ∀ (rest : List ℚ) (aPrev : ℚ) (st : Ptcl n × Obsvbl n),
      (savesGo ext conf rest aPrev st).length
        = (rest.filter fun a => saveCond conf.a_save a).length := by
  intro rest
  induction rest with
  | nil => intro _ _; rfl
  | cons an rest ih =>
    intro aPrev st
    cases hc : saveCond conf.a_save an with
    | false => simp [savesGo, List.filter_cons, hc, ih]
    | true => simp [savesGo, List.filter_cons, hc, ih]

/-- Looking up a saved checkpoint's key finds the state the run held at the
checkpoint's schedule position. -/
theorem savesGo_lookup (ext : Ext n) (conf : Conf) :
    ∀ (rest : List ℚ) (aPrev : ℚ) (st : Ptcl n × Obsvbl n) (c : ℚ),
      rest.Nodup → c ∈ rest → saveCond conf.a_save c = true →
      (∀ a ∈ rest, key3 a = key3 c → a = c) →
      dictLookup (key3 c) (savesGo ext conf rest aPrev st)
        = (nbodyStatesGo ext conf rest aPrev st)[rest.indexOf c]? := by
  intro rest
  induction rest with
  | nil => intro _ _ _ _ hc _ _; exact absurd hc (List.not_mem_nil _)
  | cons a rest ih =>
    intro aPrev st c hnd hc hcond hkeys
    by_cases hac : a = c
    · subst hac
      rw [savesGo, nbodyStatesGo]
      simp only [hcond, if_pos, if_true, List.singleton_append]
      rw [dictLookup, if_pos rfl, List.indexOf_cons_self]
      simp
    · have hkey : key3 a ≠ key3 c := fun e => hac (hkeys a (List.mem_cons_self _ _) e)
      have hcr : c ∈ rest := (List.mem_cons.1 hc).resolve_left fun e => hac e.symm
      have hrec := ih a (nbody_step ext conf aPrev a st) c hnd.of_cons hcr hcond
        (fun x hx he => hkeys x (List.mem_cons_of_mem _ hx) he)
      rw [savesGo, nbodyStatesGo]
      have hidx : (a :: rest).indexOf c = rest.indexOf c + 1 :=
        List.indexOf_cons_ne _ (fun e => hac e)
      rw [hidx]
      cases hca : saveCond conf.a_save a with
      | false =>
        simp only [hca, Bool.false_eq_true, if_false, List.nil_append]
        rw [hrec]
        simp
      | true =>
        simp only [hca, if_true, List.singleton_append]
        rw [dictLookup, if_neg hkey, hrec]
        simp

/-- C7 amended: when checkpoints are configured as a subset of the
(duplicate-free) schedule and each checkpoint is within `1e-3` of no
schedule entry other than itself, `nbody` returns the save dict, which
holds exactly one entry per requested checkpoint, and each entry's saved
state is the state the forward run held at that schedule entry.  Without
the separation hypothesis a nearby schedule entry can re-save under the
same three-decimal key and overwrite the checkpoint's state (see the
counterexample). -/
theorem nbody_checkpoint_complete (ext : Ext n) (conf : Conf) (rev : Bool)
    (ptcl : Ptcl n) (cps : List ℚ) (a0 : ℚ) (rest : List ℚ)
    (hsave : conf.a_save = some cps)
    (hsched : (if rev then conf.a_nbody.reverse else conf.a_nbody) = a0 :: rest)
    (hnodup : (a0 :: rest).Nodup)
    (hcnodup : cps.Nodup)
    (hsub : ∀ c ∈ cps, c ∈ a0 :: rest)
    (hsep : ∀ c ∈ cps, ∀ a ∈ a0 :: rest, |a - c| < 1 / 1000 → a = c) :
    nbody ext conf rev ptcl = Sum.inr (nbodyRun ext conf rev ptcl).2 ∧
    (nbodyRun ext conf rev ptcl).2.length = cps.length ∧
    ∀ c ∈ cps,
      dictLookup (key3 c) (nbodyRun ext conf rev ptcl).2
        = (nbodyStates ext conf (a0 :: rest) ptcl)[(a0 :: rest).indexOf c]? := by
  have hclose : ∀ a ∈ a0 :: rest, ∀ a' ∈ a0 :: rest,
      saveCond conf.a_save a = true → saveCond conf.a_save a' = true →
      key3 a = key3 a' → a = a' := by
    intro a ha a' ha' hca hca' he
    rw [hsave] at hca'
    have hmem' : a' ∈ cps := mem_of_saveCond hsep ha' hca'
    exact hsep a' hmem' a ha (key3_eq_close he)
  have hcondmem : ∀ a ∈ a0 :: rest,
      (saveCond conf.a_save a = true ↔ a ∈ cps) := by
    intro a ha
    rw [hsave]
    exact ⟨fun h => mem_of_saveCond hsep ha h, fun h => saveCond_self h⟩
  set st0 := nbody_init ext conf a0 ptcl with hst0
  set m0 := if saveCond conf.a_save a0 then [(key3 a0, st0)] else [] with hm0
  have hrun : nbodyRun ext conf rev ptcl = nbodyGo ext conf rest a0 st0 m0 := by
    rw [nbodyRun, hsched]
  have hfresh : ∀ a ∈ rest, saveCond conf.a_save a = true →
      key3 a ∉ m0.map Prod.fst := by
    intro a ha hca
    rw [hm0]
    cases hc0 : saveCond conf.a_save a0 with
    | false => simp
    | true =>
      simp only [if_true, List.map_cons, List.map_nil, List.mem_singleton]
      intro he
      have : a = a0 := hclose a (List.mem_cons_of_mem _ ha) a0
        (List.mem_cons_self _ _) hca hc0 he
      rw [this] at ha
      exact (List.nodup_cons.1 hnodup).1 ha
  have hnd2 : ((rest.filter fun a => saveCond conf.a_save a).map key3).Nodup := by
    refine List.Nodup.map_on ?_ ((List.nodup_cons.1 hnodup).2.filter _)
    intro x hx y hy he
    have hx' := List.mem_filter.1 hx
    have hy' := List.mem_filter.1 hy
    exact hclose x (List.mem_cons_of_mem _ hx'.1) y
      (List.mem_cons_of_mem _ hy'.1) hx'.2 hy'.2 he
  have hsaves : (nbodyRun ext conf rev ptcl).2
      = m0 ++ savesGo ext conf rest a0 st0 := by
    rw [hrun, nbodyGo_snd ext conf rest a0 st0 m0 hfresh hnd2]
  refine ⟨?_, ?_, ?_⟩
  · rw [nbody, hsave]
  · have hmem : ∀ x,
        x ∈ (a0 :: rest).filter (fun a => saveCond conf.a_save a) ↔ x ∈ cps := by
      intro x
      rw [List.mem_filter]
      constructor
      · rintro ⟨hx, hcx⟩
        exact (hcondmem x hx).1 hcx
      · intro hx
        exact ⟨hsub x hx, (hcondmem x (hsub x hx)).2 hx⟩
    have hperm := (List.perm_ext_iff_of_nodup (hnodup.filter _) hcnodup).2 hmem
    have hflen := hperm.length_eq
    have hm0len : m0.length + (rest.filter fun a => saveCond conf.a_save a).length
        = ((a0 :: rest).filter fun a => saveCond conf.a_save a).length := by
      rw [hm0]
      cases hc0 : saveCond conf.a_save a0 with
      | false => simp [List.filter_cons, hc0]
      | true => simp [List.filter_cons, hc0, Nat.add_comm]
    rw [hsaves, List.length_append, savesGo_length ext conf rest a0 st0,
      hm0len, hflen]
  · intro c hccps
    have hcond : saveCond conf.a_save c = true :=
      (hcondmem c (hsub c hccps)).2 hccps
    by_cases hca0 : c = a0
    · subst hca0
      rw [hsaves, hm0]
      simp only [hcond, if_true, List.singleton_append]
      rw [dictLookup, if_pos rfl, nbodyStates]
      simp [List.indexOf_cons_self]
    · have hcr : c ∈ rest := (List.mem_cons.1 (hsub c hccps)).resolve_left
        fun e => hca0 e
      have hskip : dictLookup (key3 c) ((nbodyRun ext conf rev ptcl).2)
          = dictLookup (key3 c) (savesGo ext conf rest a0 st0) := by
        rw [hsaves, hm0]
        cases hc0 : saveCond conf.a_save a0 with
        | false => simp
        | true =>
          simp only [if_true, List.singleton_append]
          rw [dictLookup, if_neg]
          intro he
          exact hca0 (hclose c (hsub c hccps) a0 (List.mem_cons_self _ _)
            hcond hc0 he.symm)
      rw [hskip, savesGo_lookup ext conf rest a0 st0 c
        (List.nodup_cons.1 hnodup).2 hcr hcond ?_]
      · rw [nbodyStates, List.indexOf_cons_ne _ (fun e => hca0 e.symm)]
        simp
      · intro a ha he
        exact hsep c hccps a (List.mem_cons_of_mem _ ha) (key3_eq_close he)

/-- Configuration for the C7 witness: leapfrog split, schedule
`[2/5, 1/2]`, one snapshot, checkpoints `[1/2]` (a well-separated subset of
the schedule). -/
def conf7w : Conf :=
  ⟨[(1 / 2, 1), (1 / 2, 0)], [2 / 5, 1 / 2], some [9 / 20], some [1 / 2]⟩

/-- Witness for C7 (amended) on the schedule `[2/5, 1/2]` with the single
checkpoint `1/2`. -/
theorem nbody_checkpoint_complete_witness :
    nbody extC conf7w false ptclC
      = Sum.inr (nbodyRun extC conf7w false ptclC).2 ∧
    (nbodyRun extC conf7w false ptclC).2.length = ([(1 : ℚ) / 2]).length ∧
    ∀ c ∈ [(1 : ℚ) / 2],
      dictLookup (key3 c) (nbodyRun extC conf7w false ptclC).2
        = (nbodyStates extC conf7w [(2 : ℚ) / 5, 1 / 2]
            ptclC)[([(2 : ℚ) / 5, 1 / 2]).indexOf c]? :=
  nbody_checkpoint_complete extC conf7w false ptclC [(1 : ℚ) / 2] (2 / 5)
    [(1 : ℚ) / 2] rfl rfl (by norm_num) (by simp) (by simp)
    (by
      intro c hc a ha hlt
      simp only [List.mem_singleton] at hc
      subst hc
      rcases List.mem_cons.1 ha with h | h
      · subst h; norm_num [abs_lt] at hlt
      · simpa using h)

/-- Configuration for the C7 counterexample: schedule entries `2/5` and
`2/5 + 1/2500`, both within `1e-3` of the single checkpoint `2/5` and
sharing the three-decimal key `400`. -/
def conf7 : Conf :=
  ⟨[(1 / 2, 1), (1 / 2, 0)], [2 / 5, 1001 / 2500], some [2001 / 5000],
    some [2 / 5]⟩

/-- C7 counterexample: with checkpoints equal to the subset `[2/5]` of the
schedule `[2/5, 2/5 + 1/2500]`, the second schedule entry also matches the
checkpoint to tolerance and re-saves under the same formatted key, so the
entry stored for the checkpoint holds the state after stepping to
`2/5 + 1/2500`, not the forward state at the schedule entry `2/5`. -/
theorem nbody_checkpoint_overwrite :
    (dictLookup (key3 ((2 : ℚ) / 5)) (nbodyRun extC conf7 false ptclC).2).map
        (fun st => st.1.disp 0)
      ≠ some ((nbody_init extC conf7 ((2 : ℚ) / 5) ptclC).1.disp 0) := by
  have hc1 : saveCond (some [(2 : ℚ) / 5]) ((2 : ℚ) / 5) = true := by
    simp [saveCond]
  have hc2 : saveCond (some [(2 : ℚ) / 5]) ((1001 : ℚ) / 2500) = true := by
    simp [saveCond]
    norm_num [abs_lt]
  norm_num [conf7, nbodyRun, nbodyGo, nbody_step, nbody_init, hc1, hc2,
    observe, observe_init, observeLoop, coevolve, coevolve_init, form,
    form_init, integrate, integrateGo, drift, kick, force, drift_factor,
    kick_factor, G_D, G_K, itp, searchsortedLeft, bracketFor, nthWrap,
    key3, dictInsert, dictLookup, List.getD, extC, ptclC]

/-! ### Claim C9 -/

/-- C9 amended: the trajectory driver performs no validation: for any
schedule whatsoever (monotonic or not, whatever the snapshot positions),
`nbody` simply steps through every consecutive pair and returns the last
stepped state; no configuration error path exists. -/
theorem nbody_steps_unconditionally (ext : Ext n) (conf : Conf) (rev : Bool)
    (ptcl : Ptcl n) (a0 : ℚ) (rest : List ℚ)
    (hsched : (if rev then conf.a_nbody.reverse else conf.a_nbody) = a0 :: rest)
    (hnosave : conf.a_save = none) :
    nbody ext conf rev ptcl
      = Sum.inl ((nbodyStates ext conf (a0 :: rest) ptcl).getLastD
          (nbody_init ext conf a0 ptcl)) := by
  rw [nbody, hnosave, nbodyRun, hsched]
  rw [nbodyGo_fst]
  rw [nbodyStates, List.getLastD_cons]

/-- Configuration for the C9 counterexample: non-monotonic schedule
`[1, 1/2, 2]` with a snapshot request, no checkpoints. -/
def conf9 : Conf :=
  ⟨[(1 / 2, 1), (1 / 2, 0)], [1, 1 / 2, 2], some [3 / 4], none⟩

/-- C9 counterexample: on a non-monotonic schedule the driver raises no
configuration error and integration steps do occur: the run returns a
final state whose displacement has moved. -/
theorem nbody_no_validation_cex :
    ¬ List.Chain' (· < ·) conf9.a_nbody ∧
    Sum.elim (fun st => st.1.disp 0) (fun _ => (0 : ℚ))
        (nbody extC conf9 false ptclC)
      ≠ ptclC.disp 0 := by
  constructor
  · simp only [conf9, List.chain'_cons]
    norm_num
  · norm_num [nbody, conf9, nbodyRun, nbodyGo, nbody_step, nbody_init,
      saveCond, observe, observe_init, observeLoop, coevolve, coevolve_init,
      form, form_init, integrate, integrateGo, drift, kick, force,
      drift_factor, kick_factor, G_D, G_K, itp, searchsortedLeft,
      bracketFor, nthWrap, key3, dictInsert, dictLookup, List.getD,
      extC, ptclC, Sum.elim]

/-- Witness for C9 (amended) on the non-monotonic schedule of `conf9`. -/
theorem nbody_steps_unconditionally_witness :
    nbody extC conf9 false ptclC
      = Sum.inl ((nbodyStates extC conf9 [(1 : ℚ), 1 / 2, 2] ptclC).getLastD
          (nbody_init extC conf9 1 ptclC)) :=
  nbody_steps_unconditionally extC conf9 false ptclC 1 [(1 : ℚ) / 2, 2]
    rfl rfl

/-! ### Claim C10 -/

/-- C10: each coarse step erases any previously held particle attribute:
`nbody_step` ends with `coevolve`, which unconditionally replaces `attr`
with the result of the `form` hook, and `form` always returns `none`. -/
theorem nbodyStep_attr_none (ext : Ext n) (conf : Conf) (a_prev a_next : ℚ)
    (st : Ptcl n × Obsvbl n) :
    (nbody_step ext conf a_prev a_next st).1.attr = none :=
  rfl

end Pmwd
